import Mathlib

/-
Verification of the scan-copy engine of rust-cat (src/lib.rs).

The engine is the function cat (lib.rs lines 74-141).  It consumes an ordered
list of resolved-or-failed inputs and one output sink, annotates lines with a
global counter when line numbering is on, and writes an end mark before every
line terminator when end marking is on.  Bytes are modelled as Nat (the line
terminator is 10, the end mark 36), byte strings as List Nat, a failed input
as an Except.error carrying the message bytes, and the chunks handed out by
fill_buf as arbitrary non-empty prefixes of the unread bytes, chosen by a
schedule function.  Read failures of a resolved source and write failures of
the sink are modelled by a flag on the source and an optional output cap.
The line counter of lib.rs is an i32 by default inference; its value is kept
as an Int that is only ever updated through the two's-complement 32-bit
wrapping increment, the release-build behavior of the overflowing addition.
-/

namespace RustCat

/-- Line position state of the scan-copy engine (lib.rs lines 68-72). -/
inductive BufReadState where
  | StartOfLine
  | MiddleOfLine
deriving DecidableEq, Repr

/-- Observable state of one run of cat: the bytes written to the output sink
so far, the list of line-number values emitted so far (recorded, in order, at
the moment each numeral is written), the global line counter (lib.rs line 86)
and the line position state (lib.rs line 87).  The counter in lib.rs is
declared as let mut line_count = 1 with no type ascription, so it is an i32;
the count field holds the value of that i32, and it is only ever updated by
the wrapping 32-bit increment wrap32 below, so it always stays inside the
i32 range. -/
structure EngineState where
  out : List Nat
  anns : List Int
  count : Int
  st : BufReadState
deriving DecidableEq, Repr

/-- Fatal mid-run failures: a read from an already resolved source failing
(lib.rs line 99) or a write to the output sink failing (lib.rs lines 91, 108,
117, 126, 130); both are propagated by the question-mark operator. -/
inductive RunError where
  | readError
  | writeError
deriving DecidableEq, Repr

/-- Decimal digits of a number as ASCII bytes, most significant first.  The
first argument is recursion fuel; n + 1 units always suffice for n. -/
def digitsF : Nat → Nat → List Nat
  | 0, _ => []
  | fuel + 1, n => if n < 10 then [48 + n] else digitsF fuel (n / 10) ++ [48 + n % 10]

/-- ASCII decimal representation of a number, no leading zeros. -/
def natDigits (n : Nat) : List Nat := digitsF (n + 1) n

/-- Reduction of an integer to the value a 32-bit signed two's-complement
register holds for it.  The counter line_count in lib.rs (line 86) is an i32;
its increment at line 112 overflows once the counter reaches 2147483647.
Overflowing addition is a declared program error in Rust; release builds
perform exactly this two's-complement wrap, which is the behavior modeled
here. -/
def wrap32 (z : Int) : Int := (z + 2147483648) % 4294967296 - 2147483648

/-- ASCII decimal rendering of an i32 value, as written by the display
formatting of the Rust write macro: a minus sign before the digits of the
absolute value for negative numbers, plain digits otherwise. -/
def intDigits (z : Int) : List Nat :=
  if z < 0 then 45 :: natDigits z.natAbs else natDigits z.toNat

/-- The line number prefix written at start of line when numbering is on:
five spaces, the decimal counter value, one horizontal tab (lib.rs lines
34-35 and 107-111). -/
def annBytes (c : Int) : List Nat := [32, 32, 32, 32, 32] ++ intDigits c ++ [9]

/-- The diagnostic line for a resolution failure: the bytes of
"cat: ", the message, one line terminator (lib.rs line 91). -/
def errLine (msg : List Nat) : List Nat := [99, 97, 116, 58, 32] ++ msg ++ [10]

/-- Write bytes to the output sink.  The optional cap models a sink that
fails as soon as the total output would exceed it; with no cap the write
always succeeds, as for the in-memory sinks of the tests in lib.rs. -/
def wr (wcap : Option Nat) (s : EngineState) (bs : List Nat) :
    EngineState × Option RunError :=
  match wcap with
  | none => ({ s with out := s.out ++ bs }, none)
  | some c =>
    if s.out.length + bs.length ≤ c then ({ s with out := s.out ++ bs }, none)
    else (s, some RunError.writeError)

/-- The byte is not the line terminator. -/
def notNl (b : Nat) : Bool := b != 10

/-- Result of one inner-loop iteration: the engine state after the writes,
the error if a write failed, and the number of chunk bytes passed to
consume. -/
structure IterResult where
  s : EngineState
  err : Option RunError
  consumed : Nat
deriving DecidableEq, Repr

/-- The number of chunk bytes one inner-loop iteration hands to consume
(lib.rs lines 116-136): the bytes written from the chunk, that is the span up
to the first line terminator, plus one for the terminator when one was found
(line 131), otherwise the whole chunk. -/
def consumedOf (chunk : List Nat) : Nat :=
  if (chunk.takeWhile notNl).length < chunk.length then
    (chunk.takeWhile notNl).length + 1
  else (chunk.takeWhile notNl).length

/-- One iteration of the inner loop of cat (lib.rs lines 106-136) on the
chunk returned by fill_buf.  It writes the line number prefix when at start
of line with numbering on (107-113), writes the chunk up to but not including
the first line terminator (116-117), and, when a terminator is present,
writes the end mark if enabled and then the terminator, returning to start of
line (121-131); otherwise it records mid-line state (133). -/
def iterStep (lineNums lineEnds : Bool) (wcap : Option Nat) (chunk : List Nat)
    (s0 : EngineState) : IterResult :=
  let p := chunk.takeWhile notNl
  let se : EngineState × Option RunError :=
    match (if s0.st = BufReadState.StartOfLine ∧ lineNums = true then
             match wr wcap s0 (annBytes s0.count) with
             | (s, none) => ({ s with anns := s.anns ++ [s.count], count := wrap32 (s.count + 1) }, (none : Option RunError))
             | (s, some e) => (s, some e)
           else (s0, none)) with
    | (s, some e) => (s, some e)
    | (s1, none) =>
      match wr wcap s1 p with
      | (s, some e) => (s, some e)
      | (s2, none) =>
        if p.length < chunk.length then
          match (if lineEnds then wr wcap s2 [36] else (s2, none)) with
          | (s, some e) => (s, some e)
          | (s3, none) =>
            match wr wcap s3 [10] with
            | (s, some e) => (s, some e)
            | (s4, none) => ({ s4 with st := BufReadState.StartOfLine }, none)
        else ({ s2 with st := BufReadState.MiddleOfLine }, none)
  ⟨se.1, se.2, consumedOf chunk⟩

/-- The inner loop of cat draining one resolved source (lib.rs lines 98-138).
The fuel argument bounds the number of fill_buf calls; it is the number of
unread bytes at entry, which always suffices because every iteration on a
non-empty chunk consumes at least one byte.  At call number i, fill_buf makes
a chunk of sched i + 1 bytes available (clipped to the unread bytes, so never
empty while bytes remain): the scan must be correct for every such schedule.
Once the source is exhausted, rerr decides whether the next fill_buf reports
a read failure instead of end of stream. -/
def drainLoopF (lineNums lineEnds : Bool) (wcap : Option Nat) (sched : Nat → Nat)
    (rerr : Bool) : Nat → Nat → List Nat → EngineState → EngineState × Option RunError
  | 0, _, _, s => if rerr then (s, some RunError.readError) else (s, none)
  | fuel + 1, i, src, s =>
    if src = [] then (if rerr then (s, some RunError.readError) else (s, none))
    else
      let r := iterStep lineNums lineEnds wcap (src.take (sched i + 1)) s
      match r.err with
      | some e => (r.s, some e)
      | none => drainLoopF lineNums lineEnds wcap sched rerr fuel (i + 1)
                  (src.drop r.consumed) r.s

/-- Drain one resolved source from its full content. -/
def drainLoop (lineNums lineEnds : Bool) (wcap : Option Nat) (sched : Nat → Nat)
    (src : List Nat) (rerr : Bool) (s : EngineState) : EngineState × Option RunError :=
  drainLoopF lineNums lineEnds wcap sched rerr src.length 0 src s

/-- Reference instance of the inner loop in which every fill_buf call hands
out all unread bytes and no read or write failure occurs.  Proved to agree
with drainLoop for every chunk schedule (drainLoop_eq_drainPure below). -/
def drainPureF (lineNums lineEnds : Bool) : Nat → List Nat → EngineState → EngineState
  | 0, _, s => s
  | fuel + 1, src, s =>
    if src = [] then s
    else
      let r := iterStep lineNums lineEnds none src s
      drainPureF lineNums lineEnds fuel (src.drop r.consumed) r.s

/-- Drain one source with whole-content chunks and no failures. -/
def drainPure (lineNums lineEnds : Bool) (src : List Nat) (s : EngineState) :
    EngineState :=
  drainPureF lineNums lineEnds src.length src s

/-- A successfully resolved source: its content, the chunk-size schedule of
its internal buffer, and whether a read failure occurs at the point where its
content has been consumed. -/
structure Source where
  content : List Nat
  sched : Nat → Nat
  readErrAtEnd : Bool

/-- One element of the input list of cat: either a resolved source or a
resolution failure carrying its message bytes (the Result values built by
get_buf_read, lib.rs lines 14-22 and 75). -/
abbrev CatInput := Except (List Nat) Source

/-- The outer loop of cat over the input list (lib.rs lines 89-139): a failed
input prints one diagnostic line and resets the line position state to start
of line (90-95); a resolved input is drained by the inner loop, with the line
counter and the line position state carried across source boundaries.  The
run aborts on the first read or write failure. -/
def catRun (lineNums lineEnds : Bool) (wcap : Option Nat) :
    List CatInput → EngineState → EngineState × Option RunError
  | [], s => (s, none)
  | Except.error msg :: rest, s =>
    match wr wcap s (errLine msg) with
    | (s1, some e) => (s1, some e)
    | (s1, none) => catRun lineNums lineEnds wcap rest
        { s1 with st := BufReadState.StartOfLine }
  | Except.ok src :: rest, s =>
    match drainLoop lineNums lineEnds wcap src.sched src.content src.readErrAtEnd s with
    | (s1, some e) => (s1, some e)
    | (s1, none) => catRun lineNums lineEnds wcap rest s1

/-- The engine state at the start of every run: empty output, no annotations,
line counter 1, start of line (lib.rs lines 86-87). -/
def initState : EngineState :=
  { out := [], anns := [], count := 1, st := BufReadState.StartOfLine }

/-- The function cat (lib.rs lines 74-141): run the outer loop on the input
list from a fresh engine state. -/
def cat (ins : List CatInput) (lineNums lineEnds : Bool) (wcap : Option Nat) :
    EngineState × Option RunError :=
  catRun lineNums lineEnds wcap ins initState

/-- Concatenation of a list of byte strings. -/
def concatAll (ls : List (List Nat)) : List Nat := ls.foldr (· ++ ·) []

/-- Build the input for a run with no resolution failures and no injected
read failures from content and schedule pairs. -/
def okInputs (srcs : List (List Nat × (Nat → Nat))) : List CatInput :=
  srcs.map fun pr => Except.ok ⟨pr.1, pr.2, false⟩

/-- The line-number prefix bytes contributed by one iteration: the prefix for
the current counter when at start of line with numbering on, else nothing. -/
def annIf (lineNums : Bool) (s : EngineState) : List Nat :=
  if s.st = BufReadState.StartOfLine ∧ lineNums = true then annBytes s.count else []

/-- The recorded annotations after one iteration. -/
def annsAfter (lineNums : Bool) (s : EngineState) : List Int :=
  if s.st = BufReadState.StartOfLine ∧ lineNums = true then s.anns ++ [s.count] else s.anns

/-- The line counter after one iteration: the wrapping i32 increment when an
annotation was written, unchanged otherwise. -/
def countAfter (lineNums : Bool) (s : EngineState) : Int :=
  if s.st = BufReadState.StartOfLine ∧ lineNums = true then wrap32 (s.count + 1)
  else s.count

/-- The end-mark bytes written before a terminator: the end mark when
end marking is on, else nothing. -/
def markIf (lineEnds : Bool) : List Nat := if lineEnds then [36] else []

/-- The line position state is start of line exactly when the output so far
is empty or ends with a line terminator. -/
def linePosInv (s : EngineState) : Prop :=
  s.st = BufReadState.StartOfLine ↔ (s.out = [] ∨ s.out.getLast? = some 10)

/-- The wrapped i32 values of 1, 2, ..., k in order: what the line counter
prints on the first k annotations. -/
def wrapSeq (k : Nat) : List Int :=
  (List.range' 1 k).map (fun n : Nat => wrap32 (n : Int))

/-- The recorded annotations are exactly the wrapped i32 values of
1, 2, ..., and the counter holds the wrapped value of the next index. -/
def annsGood (s : EngineState) : Prop :=
  s.anns = wrapSeq s.anns.length ∧
  s.count = wrap32 ((s.anns.length : Int) + 1)

/-- Byte strings in which end marks and line terminators occur only as
adjacent end-mark-then-terminator pairs, built from marked or unmarked
blocks. -/
inductive GoodDollar : List Nat → Prop
  | nil : GoodDollar []
  | byte (b : Nat) (l : List Nat) : b ≠ 10 → b ≠ 36 → GoodDollar l → GoodDollar (b :: l)
  | mark (l : List Nat) : GoodDollar l → GoodDollar (36 :: 10 :: l)

/-- Pointwise statement of the end-marking property: the output does not
start with a line terminator, and a position holds a line terminator exactly
when the previous position holds an end mark.  This makes every terminator
preceded by exactly one end mark (two adjacent end marks would force the
second to be a terminator) and every end mark followed by a terminator. -/
def dollarMarked (l : List Nat) : Prop :=
  l.get? 0 ≠ some 10 ∧
  ∀ i, i < l.length → (l.get? (i + 1) = some 10 ↔ l.get? i = some 36)

instance (l : List Nat) : Decidable (dollarMarked l) := by
  unfold dollarMarked
  infer_instance

instance (s : EngineState) : Decidable (linePosInv s) := by
  unfold linePosInv
  infer_instance

/-! Helper lemmas about takeWhile, take and drop. -/

theorem length_tw_le (p : Nat → Bool) (l : List Nat) :
    (l.takeWhile p).length ≤ l.length := by
  conv_rhs => rw [← List.takeWhile_append_dropWhile (p := p) (l := l)]
  rw [List.length_append]
  exact Nat.le_add_right _ _

theorem tw_take (p : Nat → Bool) (l : List Nat) (k : Nat) :
    (l.take k).takeWhile p = (l.takeWhile p).take k := by
  induction l generalizing k with
  | nil => simp
  | cons a t ih =>
    cases k with
    | zero => simp
    | succ k =>
      by_cases h : p a
      · simp [List.takeWhile_cons, h, ih]
      · simp [List.takeWhile_cons, h]

theorem tw_append_lt (p : Nat → Bool) (l₁ l₂ : List Nat)
    (h : (l₁.takeWhile p).length < l₁.length) :
    (l₁ ++ l₂).takeWhile p = l₁.takeWhile p := by
  induction l₁ with
  | nil => simp at h
  | cons a t ih =>
    by_cases ha : p a
    · simp only [List.takeWhile_cons, ha, if_true, List.cons_append,
        List.length_cons] at h ⊢
      rw [ih (Nat.lt_of_succ_lt_succ h)]
    · simp [List.takeWhile_cons, ha]

theorem tw_append_full (p : Nat → Bool) (l₁ l₂ : List Nat)
    (h : l₁.takeWhile p = l₁) :
    (l₁ ++ l₂).takeWhile p = l₁ ++ l₂.takeWhile p := by
  rw [List.takeWhile_eq_self_iff] at h
  revert h
  induction l₁ with
  | nil => intro _; simp
  | cons a t ih =>
    intro h
    have ha : p a = true := h a (List.mem_cons_self a t)
    have ht : ∀ x ∈ t, p x = true := fun x hx => h x (List.mem_cons_of_mem a hx)
    simp [List.takeWhile_cons, ha, ih ht]

theorem tw_all_ne_nl {b : Nat} {l : List Nat} (hb : b ∈ l.takeWhile notNl) :
    b ≠ 10 := by
  have := List.mem_takeWhile_imp hb
  simpa [notNl, bne_iff_ne] using this

theorem tw_decomp (l : List Nat) (h : (l.takeWhile notNl).length < l.length) :
    l = l.takeWhile notNl ++ 10 :: l.drop ((l.takeWhile notNl).length + 1) := by
  induction l with
  | nil => simp at h
  | cons a t ih =>
    by_cases ha : notNl a
    · simp only [List.takeWhile_cons, ha, if_true, List.length_cons] at h ⊢
      have := ih (Nat.lt_of_succ_lt_succ h)
      calc a :: t = a :: (t.takeWhile notNl ++ 10 :: t.drop ((t.takeWhile notNl).length + 1)) := by
            rw [← this]
        _ = _ := by simp
    · have ha10 : a = 10 := by simpa [notNl, bne_iff_ne, not_not] using ha
      subst ha10
      simp [List.takeWhile_cons, notNl]

theorem take_len_take (l : List Nat) (k : Nat) :
    l.take (l.take k).length = l.take k := by
  rcases le_or_lt k l.length with h | h
  · rw [List.length_take, Nat.min_eq_left h]
  · rw [List.length_take, Nat.min_eq_right (Nat.le_of_lt h), List.take_length,
      List.take_of_length_le (Nat.le_of_lt h)]

theorem take_ne_nil {l : List Nat} (hl : l ≠ []) (k : Nat) :
    l.take (k + 1) ≠ [] := by
  cases l with
  | nil => exact absurd rfl hl
  | cons a t => simp [List.take]

/-! Helper lemmas about wr and iterStep. -/

@[simp] theorem wr_none (s : EngineState) (bs : List Nat) :
    wr none s bs = ({ s with out := s.out ++ bs }, none) := rfl

theorem iterStep_consumed (lineNums lineEnds : Bool) (wcap : Option Nat)
    (chunk : List Nat) (s : EngineState) :
    (iterStep lineNums lineEnds wcap chunk s).consumed = consumedOf chunk := rfl

theorem consumedOf_pos {chunk : List Nat} (hc : chunk ≠ []) :
    1 ≤ consumedOf chunk := by
  unfold consumedOf
  split
  · exact Nat.succ_le_succ (Nat.zero_le _)
  · rename_i h
    have he : (chunk.takeWhile notNl).length = chunk.length :=
      Nat.le_antisymm (length_tw_le _ _) (Nat.le_of_not_lt h)
    rw [he]
    exact Nat.succ_le_of_lt (List.length_pos.mpr hc)

theorem consumedOf_le (chunk : List Nat) : consumedOf chunk ≤ chunk.length := by
  unfold consumedOf
  split
  · rename_i h; exact h
  · exact length_tw_le _ _

theorem iterStep_none_nl (lineNums lineEnds : Bool) (chunk : List Nat) (s : EngineState)
    (hnl : (chunk.takeWhile notNl).length < chunk.length) :
    iterStep lineNums lineEnds none chunk s =
      ⟨{ out := s.out ++ annIf lineNums s ++ chunk.takeWhile notNl ++ markIf lineEnds ++ [10],
         anns := annsAfter lineNums s, count := countAfter lineNums s,
         st := BufReadState.StartOfLine }, none, (chunk.takeWhile notNl).length + 1⟩ := by
  have hc : consumedOf chunk = (chunk.takeWhile notNl).length + 1 := by
    unfold consumedOf; rw [if_pos hnl]
  by_cases h : s.st = BufReadState.StartOfLine ∧ lineNums = true
  · cases lineEnds <;>
      simp [iterStep, wr, annIf, annsAfter, countAfter, markIf, h, hnl, hc, List.append_assoc]
  · cases lineEnds <;>
      simp [iterStep, wr, annIf, annsAfter, countAfter, markIf, h, hnl, hc, List.append_assoc]

theorem iterStep_none_noNl (lineNums lineEnds : Bool) (chunk : List Nat) (s : EngineState)
    (hp : chunk.takeWhile notNl = chunk) :
    iterStep lineNums lineEnds none chunk s =
      ⟨{ out := s.out ++ annIf lineNums s ++ chunk,
         anns := annsAfter lineNums s, count := countAfter lineNums s,
         st := BufReadState.MiddleOfLine }, none, chunk.length⟩ := by
  have hnl : ¬((chunk.takeWhile notNl).length < chunk.length) := by
    rw [hp]; exact Nat.lt_irrefl _
  have hc : consumedOf chunk = chunk.length := by
    unfold consumedOf; rw [if_neg hnl, hp]
  by_cases h : s.st = BufReadState.StartOfLine ∧ lineNums = true
  · simp [iterStep, wr, annIf, annsAfter, countAfter, h, hp, hnl, hc, List.append_assoc]
  · simp [iterStep, wr, annIf, annsAfter, countAfter, h, hp, hnl, hc, List.append_assoc]

theorem tw_full_of_le {p : Nat → Bool} {l : List Nat}
    (h : l.length ≤ (l.takeWhile p).length) : l.takeWhile p = l := by
  have h2 := length_tw_le p l
  have hlen : (l.takeWhile p).length = l.length := Nat.le_antisymm h2 h
  have hd : (l.dropWhile p).length = 0 := by
    have := congrArg List.length (List.takeWhile_append_dropWhile (p := p) (l := l))
    rw [List.length_append, hlen] at this
    omega
  have hd' : l.dropWhile p = [] := List.length_eq_zero.mp hd
  conv_rhs => rw [← List.takeWhile_append_dropWhile (p := p) (l := l)]
  rw [hd', List.append_nil]

theorem iterStep_none_err (lineNums lineEnds : Bool) (chunk : List Nat) (s : EngineState) :
    (iterStep lineNums lineEnds none chunk s).err = none := by
  rcases le_or_lt chunk.length (chunk.takeWhile notNl).length with h | h
  · rw [iterStep_none_noNl _ _ _ _ (tw_full_of_le h)]
  · rw [iterStep_none_nl _ _ _ _ h]

/-! Helper lemmas about drainPureF and drainPure. -/

theorem drainPureF_fuel_irrel (lineNums lineEnds : Bool) :
    ∀ (f1 f2 : Nat) (src : List Nat) (s : EngineState),
      src.length ≤ f1 → src.length ≤ f2 →
      drainPureF lineNums lineEnds f1 src s = drainPureF lineNums lineEnds f2 src s := by
  intro f1
  induction f1 with
  | zero =>
    intro f2 src s h1 _
    have : src = [] := List.eq_nil_of_length_eq_zero (Nat.le_zero.mp h1)
    subst this
    cases f2 <;> simp [drainPureF]
  | succ f1 ih =>
    intro f2 src s h1 h2
    cases f2 with
    | zero =>
      have : src = [] := List.eq_nil_of_length_eq_zero (Nat.le_zero.mp h2)
      subst this
      simp [drainPureF]
    | succ f2 =>
      by_cases hsrc : src = []
      · subst hsrc; simp [drainPureF]
      · simp only [drainPureF, if_neg hsrc]
        have hcons : 1 ≤ (iterStep lineNums lineEnds none src s).consumed := by
          rw [iterStep_consumed]; exact consumedOf_pos hsrc
        have hlen : (src.drop (iterStep lineNums lineEnds none src s).consumed).length
            ≤ f1 := by
          rw [List.length_drop]
          omega
        have hlen2 : (src.drop (iterStep lineNums lineEnds none src s).consumed).length
            ≤ f2 := by
          rw [List.length_drop]
          omega
        exact ih _ _ _ hlen hlen2

theorem drainPure_nil (lineNums lineEnds : Bool) (s : EngineState) :
    drainPure lineNums lineEnds [] s = s := rfl

theorem drainPure_step (lineNums lineEnds : Bool) {src : List Nat} (s : EngineState)
    (hne : src ≠ []) :
    drainPure lineNums lineEnds src s =
      drainPure lineNums lineEnds (src.drop (iterStep lineNums lineEnds none src s).consumed)
        ((iterStep lineNums lineEnds none src s).s) := by
  obtain ⟨m, hm⟩ : ∃ m, src.length = m + 1 := by
    cases h : src.length with
    | zero => exact absurd (List.eq_nil_of_length_eq_zero h) hne
    | succ m => exact ⟨m, rfl⟩
  unfold drainPure
  rw [hm]
  simp only [drainPureF, if_neg hne]
  have hcons : 1 ≤ (iterStep lineNums lineEnds none src s).consumed := by
    rw [iterStep_consumed]; exact consumedOf_pos hne
  apply drainPureF_fuel_irrel
  · rw [List.length_drop]; omega
  · exact Nat.le_refl _

theorem drainPure_nl (lineNums lineEnds : Bool) {src : List Nat} (s : EngineState)
    (hnl : (src.takeWhile notNl).length < src.length) :
    drainPure lineNums lineEnds src s =
      drainPure lineNums lineEnds (src.drop ((src.takeWhile notNl).length + 1))
        { out := s.out ++ annIf lineNums s ++ src.takeWhile notNl ++ markIf lineEnds ++ [10],
          anns := annsAfter lineNums s, count := countAfter lineNums s,
          st := BufReadState.StartOfLine } := by
  have hne : src ≠ [] := by
    intro h; subst h; simp at hnl
  rw [drainPure_step lineNums lineEnds s hne, iterStep_none_nl lineNums lineEnds src s hnl]

theorem drainPure_noNl (lineNums lineEnds : Bool) {src : List Nat} (s : EngineState)
    (hp : src.takeWhile notNl = src) (hne : src ≠ []) :
    drainPure lineNums lineEnds src s =
      { out := s.out ++ annIf lineNums s ++ src,
        anns := annsAfter lineNums s, count := countAfter lineNums s,
        st := BufReadState.MiddleOfLine } := by
  rw [drainPure_step lineNums lineEnds s hne, iterStep_none_noNl lineNums lineEnds src s hp]
  simp [List.drop_length, drainPure_nil]

/-- Processing a source whose leading span up to some point is terminator
free behaves as if that span had already been written and the engine were
mid-line: the rest of the source continues the same output line. -/
theorem drainPure_split_mid (lineNums lineEnds : Bool) (a rest : List Nat)
    (s : EngineState) (hne : a ≠ []) (hp : a.takeWhile notNl = a) :
    drainPure lineNums lineEnds (a ++ rest) s =
      drainPure lineNums lineEnds rest
        { out := s.out ++ annIf lineNums s ++ a, anns := annsAfter lineNums s,
          count := countAfter lineNums s, st := BufReadState.MiddleOfLine } := by
  by_cases hrest : rest = []
  · subst hrest
    rw [List.append_nil, drainPure_noNl lineNums lineEnds s hp hne, drainPure_nil]
  · rcases le_or_lt rest.length (rest.takeWhile notNl).length with hble | hblt
    · -- the rest is terminator free as well: one mid-line block each side
      have hbfull : rest.takeWhile notNl = rest := tw_full_of_le hble
      have habfull : (a ++ rest).takeWhile notNl = a ++ rest := by
        rw [tw_append_full notNl a rest hp, hbfull]
      rw [drainPure_noNl lineNums lineEnds s habfull (by simp [hne]),
        drainPure_noNl lineNums lineEnds _ hbfull hrest]
      simp [annIf, annsAfter, countAfter, List.append_assoc]
    · -- the rest holds a terminator: both sides finish the merged line
      have hab : (a ++ rest).takeWhile notNl = a ++ rest.takeWhile notNl :=
        tw_append_full notNl a rest hp
      have hnlab : ((a ++ rest).takeWhile notNl).length < (a ++ rest).length := by
        rw [hab]
        simp only [List.length_append]
        omega
      rw [drainPure_nl lineNums lineEnds s hnlab]
      rw [drainPure_nl lineNums lineEnds _ hblt]
      have hdrop : (a ++ rest).drop (((a ++ rest).takeWhile notNl).length + 1) =
          rest.drop ((rest.takeWhile notNl).length + 1) := by
        rw [hab, List.length_append]
        have : a.length + (rest.takeWhile notNl).length + 1 =
            a.length + ((rest.takeWhile notNl).length + 1) := by omega
        rw [this, ← List.drop_drop, List.drop_left]
      rw [hdrop]
      congr 1
      simp [annIf, annsAfter, countAfter, hab, List.append_assoc]

/-- Draining the concatenation of two byte strings as one source equals
draining them one after the other: the engine state carried across makes the
boundary invisible. -/
theorem drainPure_append_aux (lineNums lineEnds : Bool) :
    ∀ (N : Nat) (a b : List Nat) (s : EngineState), a.length ≤ N →
      drainPure lineNums lineEnds (a ++ b) s =
        drainPure lineNums lineEnds b (drainPure lineNums lineEnds a s) := by
  intro N
  induction N with
  | zero =>
    intro a b s h
    have : a = [] := List.eq_nil_of_length_eq_zero (Nat.le_zero.mp h)
    subst this
    rw [List.nil_append, drainPure_nil]
  | succ N ih =>
    intro a b s h
    by_cases ha : a = []
    · subst ha
      rw [List.nil_append, drainPure_nil]
    · rcases le_or_lt a.length (a.takeWhile notNl).length with hle | hlt
      · have hfull : a.takeWhile notNl = a := tw_full_of_le hle
        rw [drainPure_split_mid lineNums lineEnds a b s ha hfull,
          drainPure_noNl lineNums lineEnds s hfull ha]
      · have hab : (a ++ b).takeWhile notNl = a.takeWhile notNl :=
          tw_append_lt notNl a b hlt
        have hnlab : ((a ++ b).takeWhile notNl).length < (a ++ b).length := by
          rw [hab]
          simp only [List.length_append]
          omega
        rw [drainPure_nl lineNums lineEnds s hnlab]
        rw [hab]
        have hdrop : (a ++ b).drop ((a.takeWhile notNl).length + 1) =
            a.drop ((a.takeWhile notNl).length + 1) ++ b :=
          List.drop_append_of_le_length (by omega)
        rw [hdrop]
        rw [ih (a.drop ((a.takeWhile notNl).length + 1)) b _
          (by rw [List.length_drop]; omega)]
        congr 1
        rw [drainPure_nl lineNums lineEnds s hlt]

theorem drainPure_append (lineNums lineEnds : Bool) (a b : List Nat) (s : EngineState) :
    drainPure lineNums lineEnds (a ++ b) s =
      drainPure lineNums lineEnds b (drainPure lineNums lineEnds a s) :=
  drainPure_append_aux lineNums lineEnds a.length a b s (Nat.le_refl _)

/-! The inner loop computes the same result for every chunk schedule. -/

theorem drainLoopF_eq_drainPure (lineNums lineEnds : Bool) (sched : Nat → Nat) :
    ∀ (fuel i : Nat) (src : List Nat) (s : EngineState), src.length ≤ fuel →
      drainLoopF lineNums lineEnds none sched false fuel i src s =
        (drainPure lineNums lineEnds src s, none) := by
  intro fuel
  induction fuel with
  | zero =>
    intro i src s h
    have : src = [] := List.eq_nil_of_length_eq_zero (Nat.le_zero.mp h)
    subst this
    simp [drainLoopF, drainPure_nil]
  | succ fuel ih =>
    intro i src s h
    by_cases hsrc : src = []
    · subst hsrc
      simp [drainLoopF, drainPure_nil]
    · simp only [drainLoopF, if_neg hsrc]
      have hchunk : src.take (sched i + 1) ≠ [] := take_ne_nil hsrc (sched i)
      have hcsub : (src.take (sched i + 1)).length ≤ src.length := by
        rw [List.length_take]; omega
      rcases le_or_lt (src.take (sched i + 1)).length
          ((src.take (sched i + 1)).takeWhile notNl).length with hle | hlt
      · -- the chunk is terminator free: one mid-line block, then the tail
        have hfull : (src.take (sched i + 1)).takeWhile notNl = src.take (sched i + 1) :=
          tw_full_of_le hle
        rw [iterStep_none_noNl lineNums lineEnds _ s hfull]
        have hlen : (src.drop (src.take (sched i + 1)).length).length ≤ fuel := by
          rw [List.length_drop]
          have : 1 ≤ (src.take (sched i + 1)).length := by
            cases h' : src.take (sched i + 1) with
            | nil => exact absurd h' hchunk
            | cons x xs => simp [h']
          omega
        rw [ih (i + 1) _ _ hlen]
        have hsplit : src.take (sched i + 1) ++ src.drop (src.take (sched i + 1)).length
            = src := by
          conv_rhs => rw [← List.take_append_drop (src.take (sched i + 1)).length src]
          rw [take_len_take]
        have := drainPure_split_mid lineNums lineEnds (src.take (sched i + 1))
          (src.drop (src.take (sched i + 1)).length) s hchunk hfull
        rw [hsplit] at this
        rw [this]
      · -- the chunk holds a terminator: the iteration agrees with the one on
        -- the whole unread content, because the first terminator is inside
        have hpc : (src.take (sched i + 1)).takeWhile notNl = src.takeWhile notNl := by
          rw [tw_take notNl src (sched i + 1)]
          rcases le_or_lt (sched i + 1) (src.takeWhile notNl).length with hk | hk
          · exfalso
            have h1 : ((src.takeWhile notNl).take (sched i + 1)).length = sched i + 1 := by
              rw [List.length_take]
              exact Nat.min_eq_left hk
            have h2 : (src.take (sched i + 1)).length ≤ sched i + 1 := by
              rw [List.length_take]
              exact Nat.min_le_left _ _
            have hlt' : ((src.takeWhile notNl).take (sched i + 1)).length
                < (src.take (sched i + 1)).length := by
              rw [← tw_take notNl src (sched i + 1)]
              exact hlt
            omega
          · exact List.take_of_length_le (Nat.le_of_lt hk)
        have hnlsrc : (src.takeWhile notNl).length < src.length := by
          rw [← hpc]
          calc ((src.take (sched i + 1)).takeWhile notNl).length
              < (src.take (sched i + 1)).length := hlt
            _ ≤ src.length := hcsub
        have hnlc : ((src.take (sched i + 1)).takeWhile notNl).length
            < (src.take (sched i + 1)).length := hlt
        rw [iterStep_none_nl lineNums lineEnds _ s hnlc]
        have hlen : (src.drop (((src.take (sched i + 1)).takeWhile notNl).length + 1)).length
            ≤ fuel := by
          rw [List.length_drop]
          omega
        rw [ih (i + 1) _ _ hlen]
        rw [drainPure_nl lineNums lineEnds s hnlsrc]
        rw [hpc]

theorem drainLoop_eq_drainPure (lineNums lineEnds : Bool) (sched : Nat → Nat)
    (src : List Nat) (s : EngineState) :
    drainLoop lineNums lineEnds none sched src false s =
      (drainPure lineNums lineEnds src s, none) :=
  drainLoopF_eq_drainPure lineNums lineEnds sched src.length 0 src s (Nat.le_refl _)

/-! Helper lemmas about the outer loop. -/

theorem catRun_nil (lineNums lineEnds : Bool) (wcap : Option Nat) (s : EngineState) :
    catRun lineNums lineEnds wcap [] s = (s, none) := rfl

theorem catRun_cons_error_none (lineNums lineEnds : Bool) (msg : List Nat)
    (rest : List CatInput) (s : EngineState) :
    catRun lineNums lineEnds none (Except.error msg :: rest) s =
      catRun lineNums lineEnds none rest
        { s with out := s.out ++ errLine msg, st := BufReadState.StartOfLine } := by
  simp [catRun, wr]

theorem catRun_cons_ok (lineNums lineEnds : Bool) (src : Source)
    (rest : List CatInput) (s : EngineState)
    (h : (drainLoop lineNums lineEnds none src.sched src.content src.readErrAtEnd s).2
      = none) :
    catRun lineNums lineEnds none (Except.ok src :: rest) s =
      catRun lineNums lineEnds none rest
        (drainLoop lineNums lineEnds none src.sched src.content src.readErrAtEnd s).1 := by
  simp only [catRun]
  cases hd : drainLoop lineNums lineEnds none src.sched src.content src.readErrAtEnd s with
  | mk s1 e1 =>
    rw [hd] at h
    cases e1 with
    | none => rfl
    | some er => exact absurd h (by simp)

theorem catRun_append_of_ok (lineNums lineEnds : Bool) (wcap : Option Nat) :
    ∀ (xs ys : List CatInput) (s : EngineState),
      (catRun lineNums lineEnds wcap xs s).2 = none →
      catRun lineNums lineEnds wcap (xs ++ ys) s =
        catRun lineNums lineEnds wcap ys (catRun lineNums lineEnds wcap xs s).1 := by
  intro xs
  induction xs with
  | nil => intro ys s _; rfl
  | cons x xs ih =>
    intro ys s h
    cases x with
    | error msg =>
      cases hw : wr wcap s (errLine msg) with
      | mk s1 e1 =>
        cases e1 with
        | none =>
          simp only [List.cons_append, catRun, hw]
          refine ih ys _ ?_
          simpa [catRun, hw] using h
        | some er =>
          exfalso
          simp [catRun, hw] at h
    | ok src =>
      cases hd : drainLoop lineNums lineEnds wcap src.sched src.content src.readErrAtEnd s with
      | mk s1 e1 =>
        cases e1 with
        | none =>
          simp only [List.cons_append, catRun, hd]
          refine ih ys _ ?_
          simpa [catRun, hd] using h
        | some er =>
          exfalso
          simp [catRun, hd] at h

theorem catRun_append_of_err (lineNums lineEnds : Bool) (wcap : Option Nat) :
    ∀ (xs ys : List CatInput) (s : EngineState) (er : RunError),
      (catRun lineNums lineEnds wcap xs s).2 = some er →
      catRun lineNums lineEnds wcap (xs ++ ys) s = catRun lineNums lineEnds wcap xs s := by
  intro xs
  induction xs with
  | nil => intro ys s er h; exact absurd h (by simp [catRun])
  | cons x xs ih =>
    intro ys s er h
    cases x with
    | error msg =>
      cases hw : wr wcap s (errLine msg) with
      | mk s1 e1 =>
        cases e1 with
        | none =>
          simp only [List.cons_append, catRun, hw]
          refine ih ys _ er ?_
          simpa [catRun, hw] using h
        | some er2 =>
          simp [List.cons_append, catRun, hw]
    | ok src =>
      cases hd : drainLoop lineNums lineEnds wcap src.sched src.content src.readErrAtEnd s with
      | mk s1 e1 =>
        cases e1 with
        | none =>
          simp only [List.cons_append, catRun, hd]
          refine ih ys _ er ?_
          simpa [catRun, hd] using h
        | some er2 =>
          simp [List.cons_append, catRun, hd]

/-! Output monotonicity: the engine only appends to the sink. -/

theorem iterStep_none_out_mono (lineNums lineEnds : Bool) (chunk : List Nat)
    (s : EngineState) :
    ∃ t, ((iterStep lineNums lineEnds none chunk s).s).out = s.out ++ t := by
  rcases le_or_lt chunk.length (chunk.takeWhile notNl).length with h | h
  · refine ⟨annIf lineNums s ++ chunk, ?_⟩
    rw [iterStep_none_noNl _ _ _ _ (tw_full_of_le h)]
    simp [List.append_assoc]
  · refine ⟨annIf lineNums s ++ chunk.takeWhile notNl ++ markIf lineEnds ++ [10], ?_⟩
    rw [iterStep_none_nl _ _ _ _ h]
    simp [List.append_assoc]

theorem drainLoopF_out_mono (lineNums lineEnds : Bool) (sched : Nat → Nat) (rerr : Bool) :
    ∀ (fuel i : Nat) (src : List Nat) (s : EngineState),
      ∃ t, ((drainLoopF lineNums lineEnds none sched rerr fuel i src s).1).out
        = s.out ++ t := by
  intro fuel
  induction fuel with
  | zero =>
    intro i src s
    refine ⟨[], ?_⟩
    cases rerr <;> simp [drainLoopF]
  | succ fuel ih =>
    intro i src s
    by_cases hsrc : src = []
    · subst hsrc
      refine ⟨[], ?_⟩
      cases rerr <;> simp [drainLoopF]
    · simp only [drainLoopF, if_neg hsrc]
      rw [iterStep_consumed]
      have herr := iterStep_none_err lineNums lineEnds (src.take (sched i + 1)) s
      obtain ⟨x, hx⟩ := iterStep_none_out_mono lineNums lineEnds (src.take (sched i + 1)) s
      obtain ⟨t, ht⟩ := ih (i + 1) (src.drop (consumedOf (src.take (sched i + 1))))
        ((iterStep lineNums lineEnds none (src.take (sched i + 1)) s).s)
      rw [herr]
      exact ⟨x ++ t, by rw [ht, hx, List.append_assoc]⟩

theorem catRun_out_mono (lineNums lineEnds : Bool) :
    ∀ (ins : List CatInput) (s : EngineState),
      ∃ t, ((catRun lineNums lineEnds none ins s).1).out = s.out ++ t := by
  intro ins
  induction ins with
  | nil => intro s; exact ⟨[], by simp [catRun_nil]⟩
  | cons x xs ih =>
    intro s
    cases x with
    | error msg =>
      rw [catRun_cons_error_none]
      obtain ⟨t, ht⟩ :=
        ih ({ s with out := s.out ++ errLine msg, st := BufReadState.StartOfLine })
      exact ⟨errLine msg ++ t, by rw [ht]; simp [List.append_assoc]⟩
    | ok src =>
      cases hd : drainLoop lineNums lineEnds none src.sched src.content src.readErrAtEnd s with
      | mk s1 e1 =>
        have hmono : ∃ x, s1.out = s.out ++ x := by
          have := drainLoopF_out_mono lineNums lineEnds src.sched src.readErrAtEnd
            src.content.length 0 src.content s
          rw [show drainLoopF lineNums lineEnds none src.sched src.readErrAtEnd
              src.content.length 0 src.content s
            = drainLoop lineNums lineEnds none src.sched src.content src.readErrAtEnd s
            from rfl, hd] at this
          exact this
        obtain ⟨x, hx⟩ := hmono
        cases e1 with
        | none =>
          simp only [catRun, hd]
          obtain ⟨t, ht⟩ := ih s1
          exact ⟨x ++ t, by rw [ht, hx, List.append_assoc]⟩
        | some er =>
          simp only [catRun, hd]
          exact ⟨x, hx⟩

/-! The run with no options enabled copies bytes verbatim. -/

theorem drainPure_no_opts :
    ∀ (N : Nat) (src : List Nat) (s : EngineState), src.length ≤ N →
      (drainPure false false src s).out = s.out ++ src ∧
      (drainPure false false src s).anns = s.anns ∧
      (drainPure false false src s).count = s.count := by
  intro N
  induction N with
  | zero =>
    intro src s h
    have : src = [] := List.eq_nil_of_length_eq_zero (Nat.le_zero.mp h)
    subst this
    simp [drainPure_nil]
  | succ N ih =>
    intro src s h
    by_cases hsrc : src = []
    · subst hsrc
      simp [drainPure_nil]
    · rcases le_or_lt src.length (src.takeWhile notNl).length with hle | hlt
      · rw [drainPure_noNl false false s (tw_full_of_le hle) hsrc]
        simp [annIf, annsAfter, countAfter]
      · rw [drainPure_nl false false s hlt]
        have hdec := tw_decomp src hlt
        obtain ⟨hout, hanns, hcount⟩ := ih (src.drop ((src.takeWhile notNl).length + 1)) _
          (by rw [List.length_drop]; omega)
        refine ⟨?_, ?_, ?_⟩
        · rw [hout]
          conv_rhs => rw [hdec]
          simp [annIf, annsAfter, countAfter, markIf, List.append_assoc]
        · rw [hanns]
          simp [annsAfter]
        · rw [hcount]
          simp [countAfter]

theorem concatAll_cons (l : List Nat) (ls : List (List Nat)) :
    concatAll (l :: ls) = l ++ concatAll ls := rfl

theorem catRun_no_opts :
    ∀ (srcs : List (List Nat × (Nat → Nat))) (s : EngineState),
      (catRun false false none (okInputs srcs) s).2 = none ∧
      ((catRun false false none (okInputs srcs) s).1).out
        = s.out ++ concatAll (srcs.map Prod.fst) ∧
      ((catRun false false none (okInputs srcs) s).1).anns = s.anns ∧
      ((catRun false false none (okInputs srcs) s).1).count = s.count := by
  intro srcs
  induction srcs with
  | nil =>
    intro s
    simp [okInputs, catRun_nil, concatAll]
  | cons pr rest ih =>
    intro s
    have hok : okInputs (pr :: rest) = Except.ok ⟨pr.1, pr.2, false⟩ :: okInputs rest := rfl
    rw [hok]
    have hdrain := drainLoop_eq_drainPure false false pr.2 pr.1 s
    have hcons : catRun false false none (Except.ok ⟨pr.1, pr.2, false⟩ :: okInputs rest) s
        = catRun false false none (okInputs rest) (drainPure false false pr.1 s) := by
      rw [catRun_cons_ok false false ⟨pr.1, pr.2, false⟩ (okInputs rest) s]
      · rw [hdrain]
      · rw [hdrain]
    rw [hcons]
    obtain ⟨he, hout, hanns, hcount⟩ := ih (drainPure false false pr.1 s)
    obtain ⟨hpout, hpanns, hpcount⟩ := drainPure_no_opts pr.1.length pr.1 s (Nat.le_refl _)
    refine ⟨he, ?_, ?_, ?_⟩
    · rw [hout, hpout, List.map_cons, concatAll_cons, List.append_assoc]
    · rw [hanns, hpanns]
    · rw [hcount, hpcount]

/-! The recorded annotations are always the wrapped initial segment
1, 2, ... up to the wrap of the i32 counter. -/

theorem range'_snoc (m : Nat) :
    List.range' 1 m ++ [1 + m] = List.range' 1 (m + 1) := by
  have h := List.range'_append 1 m 1 1
  rw [List.range'_one] at h
  simpa [Nat.one_mul, Nat.add_comm] using h

theorem wrap32_add (a b : Int) : wrap32 (wrap32 a + b) = wrap32 (a + b) := by
  unfold wrap32
  omega

theorem wrap32_small {z : Int} (h0 : -2147483648 ≤ z) (h1 : z ≤ 2147483647) :
    wrap32 z = z := by
  unfold wrap32
  omega

theorem anns_snoc_form (k : Nat) :
    wrapSeq k ++ [wrap32 ((k : Int) + 1)] = wrapSeq (k + 1) := by
  unfold wrapSeq
  rw [← range'_snoc k, List.map_append]
  have hcast : ((1 + k : Nat) : Int) = (k : Int) + 1 := by push_cast; ring
  simp [hcast]

theorem annsGood_after (lineNums : Bool) (s : EngineState) (h : annsGood s) :
    annsAfter lineNums s = wrapSeq (annsAfter lineNums s).length ∧
    countAfter lineNums s = wrap32 (((annsAfter lineNums s).length : Int) + 1) := by
  obtain ⟨h1, h2⟩ := h
  unfold annsAfter countAfter
  by_cases hc : s.st = BufReadState.StartOfLine ∧ lineNums = true
  · rw [if_pos hc, if_pos hc]
    have hl : (s.anns ++ [s.count]).length = s.anns.length + 1 := by simp
    rw [hl]
    generalize hk : s.anns.length = k at h1 h2
    constructor
    · rw [h1, h2]
      exact anns_snoc_form k
    · rw [h2, wrap32_add]
      congr 1
  · rw [if_neg hc, if_neg hc]
    exact ⟨h1, h2⟩

theorem iterStep_none_annsGood (lineNums lineEnds : Bool) (chunk : List Nat)
    (s : EngineState) (h : annsGood s) :
    annsGood ((iterStep lineNums lineEnds none chunk s).s) := by
  rcases le_or_lt chunk.length (chunk.takeWhile notNl).length with hle | hlt
  · rw [iterStep_none_noNl _ _ _ _ (tw_full_of_le hle)]
    exact annsGood_after lineNums s h
  · rw [iterStep_none_nl _ _ _ _ hlt]
    exact annsGood_after lineNums s h

theorem drainLoopF_annsGood (lineNums lineEnds : Bool) (sched : Nat → Nat) (rerr : Bool) :
    ∀ (fuel i : Nat) (src : List Nat) (s : EngineState), annsGood s →
      annsGood ((drainLoopF lineNums lineEnds none sched rerr fuel i src s).1) := by
  intro fuel
  induction fuel with
  | zero =>
    intro i src s h
    cases rerr <;> simpa [drainLoopF] using h
  | succ fuel ih =>
    intro i src s h
    by_cases hsrc : src = []
    · subst hsrc
      cases rerr <;> simpa [drainLoopF] using h
    · simp only [drainLoopF, if_neg hsrc]
      rw [iterStep_none_err]
      exact ih (i + 1) _ _
        (iterStep_none_annsGood lineNums lineEnds (src.take (sched i + 1)) s h)

theorem catRun_annsGood (lineNums lineEnds : Bool) :
    ∀ (ins : List CatInput) (s : EngineState), annsGood s →
      annsGood ((catRun lineNums lineEnds none ins s).1) := by
  intro ins
  induction ins with
  | nil => intro s h; exact h
  | cons x xs ih =>
    intro s h
    cases x with
    | error msg =>
      rw [catRun_cons_error_none]
      exact ih _ ⟨h.1, h.2⟩
    | ok src =>
      have hd1 : annsGood
          ((drainLoop lineNums lineEnds none src.sched src.content src.readErrAtEnd s).1) :=
        drainLoopF_annsGood lineNums lineEnds src.sched src.readErrAtEnd
          src.content.length 0 src.content s h
      cases hd : drainLoop lineNums lineEnds none src.sched src.content src.readErrAtEnd s with
      | mk s1 e1 =>
        rw [hd] at hd1
        cases e1 with
        | none =>
          simp only [catRun, hd]
          exact ih s1 hd1
        | some er =>
          simp only [catRun, hd]
          exact hd1

/-! The line position state tracks whether the output ends at a terminator. -/

theorem iterStep_none_linePos (lineNums lineEnds : Bool) {chunk : List Nat}
    (s : EngineState) (hchunk : chunk ≠ []) :
    linePosInv ((iterStep lineNums lineEnds none chunk s).s) := by
  rcases le_or_lt chunk.length (chunk.takeWhile notNl).length with hle | hlt
  · have hfull := tw_full_of_le hle
    rw [iterStep_none_noNl _ _ _ _ hfull]
    have hlastc : chunk.getLast? = some (chunk.getLast hchunk) := by
      conv_lhs => rw [← List.dropLast_append_getLast hchunk]
      exact List.getLast?_concat _
    have hlast : ((s.out ++ annIf lineNums s ++ chunk)).getLast?
        = some (chunk.getLast hchunk) := by
      rw [List.getLast?_append, hlastc]
      rfl
    have hne10 : chunk.getLast hchunk ≠ 10 := by
      have hmem : chunk.getLast hchunk ∈ chunk := List.getLast_mem hchunk
      have hmem2 : chunk.getLast hchunk ∈ chunk.takeWhile notNl := by
        rw [hfull]
        exact hmem
      exact tw_all_ne_nl hmem2
    constructor
    · intro hst
      exact absurd hst (by simp)
    · intro hor
      exfalso
      rcases hor with hnil | h10
      · rw [List.append_eq_nil] at hnil
        exact hchunk hnil.2
      · rw [hlast] at h10
        exact hne10 (Option.some_injective _ h10)
  · rw [iterStep_none_nl _ _ _ _ hlt]
    constructor
    · intro _
      right
      exact List.getLast?_concat _
    · intro _
      rfl

theorem drainLoopF_linePos (lineNums lineEnds : Bool) (sched : Nat → Nat) (rerr : Bool) :
    ∀ (fuel i : Nat) (src : List Nat) (s : EngineState), linePosInv s →
      linePosInv ((drainLoopF lineNums lineEnds none sched rerr fuel i src s).1) := by
  intro fuel
  induction fuel with
  | zero =>
    intro i src s h
    cases rerr <;> simpa [drainLoopF] using h
  | succ fuel ih =>
    intro i src s h
    by_cases hsrc : src = []
    · subst hsrc
      cases rerr <;> simpa [drainLoopF] using h
    · simp only [drainLoopF, if_neg hsrc]
      rw [iterStep_none_err]
      exact ih (i + 1) _ _
        (iterStep_none_linePos lineNums lineEnds s (take_ne_nil hsrc (sched i)))

theorem errLine_getLast (msg : List Nat) (o : List Nat) :
    (o ++ errLine msg).getLast? = some 10 := by
  unfold errLine
  rw [show o ++ ([99, 97, 116, 58, 32] ++ msg ++ [10])
    = (o ++ ([99, 97, 116, 58, 32] ++ msg)) ++ [10] by simp [List.append_assoc]]
  exact List.getLast?_concat _

theorem catRun_linePos (lineNums lineEnds : Bool) :
    ∀ (ins : List CatInput) (s : EngineState), linePosInv s →
      linePosInv ((catRun lineNums lineEnds none ins s).1) := by
  intro ins
  induction ins with
  | nil => intro s h; exact h
  | cons x xs ih =>
    intro s h
    cases x with
    | error msg =>
      rw [catRun_cons_error_none]
      refine ih _ ?_
      constructor
      · intro _
        right
        exact errLine_getLast msg s.out
      · intro _
        rfl
    | ok src =>
      have hd1 : linePosInv
          ((drainLoop lineNums lineEnds none src.sched src.content src.readErrAtEnd s).1) :=
        drainLoopF_linePos lineNums lineEnds src.sched src.readErrAtEnd
          src.content.length 0 src.content s h
      cases hd : drainLoop lineNums lineEnds none src.sched src.content src.readErrAtEnd s with
      | mk s1 e1 =>
        rw [hd] at hd1
        cases e1 with
        | none =>
          simp only [catRun, hd]
          exact ih s1 hd1
        | some er =>
          simp only [catRun, hd]
          exact hd1

/-! The end-marking language: building blocks and the pointwise property. -/

theorem gd_append {a b : List Nat} (ha : GoodDollar a) (hb : GoodDollar b) :
    GoodDollar (a ++ b) := by
  induction ha with
  | nil => exact hb
  | byte x l hx10 hx36 _ ih => exact GoodDollar.byte x (l ++ b) hx10 hx36 ih
  | mark l _ ih => exact GoodDollar.mark (l ++ b) ih

theorem gd_safe : ∀ (l : List Nat), (∀ x ∈ l, x ≠ 10 ∧ x ≠ 36) → GoodDollar l := by
  intro l
  induction l with
  | nil => intro _; exact GoodDollar.nil
  | cons a t ih =>
    intro h
    exact GoodDollar.byte a t (h a (by simp)).1 (h a (by simp)).2
      (ih fun x hx => h x (by simp [hx]))

theorem digitsF_range : ∀ (fuel n b : Nat), b ∈ digitsF fuel n → 48 ≤ b ∧ b ≤ 57 := by
  intro fuel
  induction fuel with
  | zero =>
    intro n b hb
    simp [digitsF] at hb
  | succ fuel ih =>
    intro n b hb
    by_cases h : n < 10
    · simp [digitsF, h] at hb
      omega
    · simp [digitsF, h] at hb
      rcases hb with hb | hb
      · exact ih _ _ hb
      · have := Nat.mod_lt n (show 0 < 10 by omega)
        omega

theorem natDigits_safe (n b : Nat) (hb : b ∈ natDigits n) : b ≠ 10 ∧ b ≠ 36 := by
  unfold natDigits at hb
  have := digitsF_range (n + 1) n b hb
  omega

theorem annBytes_safe (c : Int) : ∀ b ∈ annBytes c, b ≠ 10 ∧ b ≠ 36 := by
  intro b hb
  unfold annBytes intDigits at hb
  rcases List.mem_append.mp hb with h1 | h2
  · rcases List.mem_append.mp h1 with h0 | hd
    · simp at h0
      omega
    · split at hd
      · rcases List.mem_cons.mp hd with h45 | hd'
        · omega
        · exact natDigits_safe _ b hd'
      · exact natDigits_safe _ b hd
  · simp at h2
    omega

theorem annIf_safe (lineNums : Bool) (s : EngineState) :
    ∀ b ∈ annIf lineNums s, b ≠ 10 ∧ b ≠ 36 := by
  intro b hb
  unfold annIf at hb
  split at hb
  · exact annBytes_safe s.count b hb
  · simp at hb

theorem tw_mem_of_mem {b : Nat} {l : List Nat} (hb : b ∈ l.takeWhile notNl) : b ∈ l := by
  have hsplit := List.takeWhile_append_dropWhile (p := notNl) (l := l)
  rw [← hsplit]
  exact List.mem_append_left _ hb

theorem drainPure_goodDollar (lineNums : Bool) :
    ∀ (N : Nat) (src : List Nat) (s : EngineState), src.length ≤ N →
      (∀ b ∈ src, b ≠ 36) →
      ∃ d, GoodDollar d ∧ (drainPure lineNums true src s).out = s.out ++ d := by
  intro N
  induction N with
  | zero =>
    intro src s h _
    have : src = [] := List.eq_nil_of_length_eq_zero (Nat.le_zero.mp h)
    subst this
    exact ⟨[], GoodDollar.nil, by simp [drainPure_nil]⟩
  | succ N ih =>
    intro src s h h36
    by_cases hsrc : src = []
    · subst hsrc
      exact ⟨[], GoodDollar.nil, by simp [drainPure_nil]⟩
    · rcases le_or_lt src.length (src.takeWhile notNl).length with hle | hlt
      · have hfull := tw_full_of_le hle
        rw [drainPure_noNl lineNums true s hfull hsrc]
        refine ⟨annIf lineNums s ++ src, ?_, by simp [List.append_assoc]⟩
        refine gd_safe _ ?_
        intro x hx
        rcases List.mem_append.mp hx with hx | hx
        · exact annIf_safe lineNums s x hx
        · refine ⟨?_, h36 x hx⟩
          rw [← hfull] at hx
          exact tw_all_ne_nl hx
      · rw [drainPure_nl lineNums true s hlt]
        obtain ⟨d, hd, hout⟩ := ih (src.drop ((src.takeWhile notNl).length + 1)) _
          (by rw [List.length_drop]; omega)
          (fun b hb => h36 b (List.drop_subset _ _ hb))
        refine ⟨(annIf lineNums s ++ src.takeWhile notNl) ++ (36 :: 10 :: []) ++ d, ?_, ?_⟩
        · refine gd_append (gd_append ?_ (GoodDollar.mark [] GoodDollar.nil)) hd
          refine gd_safe _ ?_
          intro x hx
          rcases List.mem_append.mp hx with hx | hx
          · exact annIf_safe lineNums s x hx
          · exact ⟨tw_all_ne_nl hx, h36 x (tw_mem_of_mem hx)⟩
        · rw [hout]
          simp [markIf, List.append_assoc]

theorem catRun_goodDollar (lineNums : Bool) :
    ∀ (srcs : List (List Nat × (Nat → Nat))) (s : EngineState),
      (∀ pr ∈ srcs, ∀ b ∈ pr.1, b ≠ 36) →
      ∃ d, GoodDollar d ∧
        ((catRun lineNums true none (okInputs srcs) s).1).out = s.out ++ d := by
  intro srcs
  induction srcs with
  | nil =>
    intro s _
    exact ⟨[], GoodDollar.nil, by simp [okInputs, catRun_nil]⟩
  | cons pr rest ih =>
    intro s h36
    have hok : okInputs (pr :: rest) = Except.ok ⟨pr.1, pr.2, false⟩ :: okInputs rest := rfl
    rw [hok]
    have hdrain := drainLoop_eq_drainPure lineNums true pr.2 pr.1 s
    rw [catRun_cons_ok lineNums true ⟨pr.1, pr.2, false⟩ (okInputs rest) s
      (by rw [hdrain])]
    rw [hdrain]
    obtain ⟨d1, hd1, hout1⟩ := drainPure_goodDollar lineNums pr.1.length pr.1 s
      (Nat.le_refl _) (h36 pr (by simp))
    obtain ⟨d2, hd2, hout2⟩ := ih (drainPure lineNums true pr.1 s)
      (fun q hq => h36 q (by simp [hq]))
    refine ⟨d1 ++ d2, gd_append hd1 hd2, ?_⟩
    rw [hout2, hout1, List.append_assoc]

theorem gd_dollarMarked : ∀ {l : List Nat}, GoodDollar l → dollarMarked l := by
  intro l h
  induction h with
  | nil =>
    exact ⟨by simp, fun i hi => by simp at hi⟩
  | byte b l hb10 hb36 _ ih =>
    obtain ⟨ih1, ih2⟩ := ih
    constructor
    · simp [hb10]
    · intro i hi
      cases i with
      | zero =>
        constructor
        · intro h10
          exact absurd (by simpa using h10) ih1
        · intro h36
          exact absurd (by simpa using h36) hb36
      | succ i =>
        have hi' : i < l.length := by
          simp only [List.length_cons] at hi
          omega
        simpa using ih2 i hi'
  | mark l _ ih =>
    obtain ⟨ih1, ih2⟩ := ih
    constructor
    · simp
    · intro i hi
      match i with
      | 0 => simp
      | 1 =>
        constructor
        · intro h10
          exact absurd (by simpa using h10) ih1
        · intro h36
          simp at h36
      | i + 2 =>
        have hi' : i < l.length := by
          simp only [List.length_cons] at hi
          omega
        simpa using ih2 i hi'

theorem catRun_cons_ok_pure (lineNums lineEnds : Bool) (c : List Nat) (sch : Nat → Nat)
    (rest : List CatInput) (s : EngineState) :
    catRun lineNums lineEnds none (Except.ok ⟨c, sch, false⟩ :: rest) s =
      catRun lineNums lineEnds none rest (drainPure lineNums lineEnds c s) := by
  rw [catRun_cons_ok lineNums lineEnds ⟨c, sch, false⟩ rest s
    (by rw [drainLoop_eq_drainPure])]
  rw [drainLoop_eq_drainPure]

/-- With numbering on, a source made of m bare terminators produces exactly m
annotations and ends at start of line. -/
theorem drainPure_replicate_nl (lineEnds : Bool) :
    ∀ (m : Nat) (s : EngineState), s.st = BufReadState.StartOfLine →
      (drainPure true lineEnds (List.replicate m 10) s).anns.length = s.anns.length + m ∧
      (drainPure true lineEnds (List.replicate m 10) s).st
        = BufReadState.StartOfLine := by
  intro m
  induction m with
  | zero =>
    intro s hs
    exact ⟨by simp [drainPure_nil], by simpa [drainPure_nil] using hs⟩
  | succ m ih =>
    intro s hs
    have htw : (List.replicate (m + 1) (10 : Nat)).takeWhile notNl = [] := by
      rw [List.replicate_succ, List.takeWhile_cons]
      simp [notNl]
    have hnl : ((List.replicate (m + 1) (10 : Nat)).takeWhile notNl).length
        < (List.replicate (m + 1) (10 : Nat)).length := by
      rw [htw]
      simp
    rw [drainPure_nl true lineEnds s hnl, htw]
    simp only [List.length_nil, Nat.zero_add]
    have hdrop : (List.replicate (m + 1) (10 : Nat)).drop 1 = List.replicate m 10 := by
      rw [List.replicate_succ]
      rfl
    rw [hdrop]
    obtain ⟨hlen, hst⟩ := ih
      { out := s.out ++ annIf true s ++ [] ++ markIf lineEnds ++ [10],
        anns := annsAfter true s, count := countAfter true s,
        st := BufReadState.StartOfLine } rfl
    refine ⟨?_, hst⟩
    rw [hlen]
    simp [annsAfter, hs]
    omega

/-- The annotations of a run are characterized by the counter invariant even
at the level of a single fully drained source. -/
theorem drainPure_annsGood (lineNums lineEnds : Bool) (src : List Nat)
    (s : EngineState) (h : annsGood s) :
    annsGood (drainPure lineNums lineEnds src s) := by
  have hd := drainLoopF_annsGood lineNums lineEnds (fun _ => 0) false
    src.length 0 src s h
  rw [drainLoopF_eq_drainPure lineNums lineEnds (fun _ => 0) src.length 0 src s
    (Nat.le_refl _)] at hd
  exact hd

/-! Claims. -/

/-- C1: for every sequence of successfully resolved sources, running cat with
line numbering and end-of-line marking both disabled produces an output byte
sequence equal to the concatenation of all source contents in input order,
whatever chunk sizes the buffers hand out, and the run reports no error. -/
theorem c1_identity (srcs : List (List Nat × (Nat → Nat))) :
    ((cat (okInputs srcs) false false none).1).out = concatAll (srcs.map Prod.fst) ∧
    (cat (okInputs srcs) false false none).2 = none := by
  obtain ⟨he, hout, _, _⟩ := catRun_no_opts srcs initState
  constructor
  · simp only [cat]
    rw [hout]
    rfl
  · exact he

/-- C2: a source that ends without a trailing terminator followed by another
resolved source merges into a single output line: running cat on two sources
equals running it on their concatenation as one source, for every option pair
and all chunk schedules; in particular the sources ab, empty, cd-newline with
numbering on and end marks off produce exactly the twelve bytes
five spaces, 1, tab, a, b, c, d, newline, with a single annotation. -/
theorem c2_boundary_merge (lineNums lineEnds : Bool) (a b : List Nat)
    (s1 s2 s3 : Nat → Nat) :
    cat [Except.ok ⟨a, s1, false⟩, Except.ok ⟨b, s2, false⟩] lineNums lineEnds none =
      cat [Except.ok ⟨a ++ b, s3, false⟩] lineNums lineEnds none ∧
    ((cat [Except.ok ⟨[97, 98], s1, false⟩, Except.ok ⟨[], s2, false⟩,
        Except.ok ⟨[99, 100, 10], s3, false⟩] true false none).1).out
      = [32, 32, 32, 32, 32, 49, 9, 97, 98, 99, 100, 10] := by
  constructor
  · simp only [cat, catRun_cons_ok_pure, catRun_nil]
    rw [drainPure_append]
  · simp only [cat, catRun_cons_ok_pure, catRun_nil]
    rfl

/-- C3 counterexample: the line counter is an i32 whose increment wraps at
2147483647, so the claim that the n-th annotation equals n for every n fails:
in the run on a single source of 2147483648 bare terminators with numbering
on, the annotation at one-based position 2147483648 is the wrapped value
-2147483648, not 2147483648. -/
theorem c3_counterexample :
    ((cat (okInputs [(List.replicate 2147483648 10, fun _ => 0)]) true false
        none).1).anns.get? 2147483647 = some (-2147483648 : Int) ∧
    some (-2147483648 : Int) ≠ some ((2147483647 : Int) + 1) := by
  constructor
  · simp only [cat]
    have hok : okInputs [(List.replicate 2147483648 10, fun _ => 0)]
        = [Except.ok ⟨List.replicate 2147483648 10, fun _ => 0, false⟩] := rfl
    rw [hok, catRun_cons_ok_pure, catRun_nil]
    have hgood : annsGood
        (drainPure true false (List.replicate 2147483648 10) initState) :=
      drainPure_annsGood true false _ initState ⟨rfl, by decide⟩
    obtain ⟨hform, _⟩ := hgood
    obtain ⟨hlen, _⟩ := drainPure_replicate_nl false 2147483648 initState rfl
    have hlen2 : (drainPure true false (List.replicate 2147483648 10)
        initState).anns.length = 2147483648 := by
      rw [hlen]
      rfl
    rw [hform, hlen2]
    unfold wrapSeq
    rw [List.get?_map, List.get?_range' 1 1 (show 2147483647 < 2147483648 by omega)]
    have hval : wrap32 ((1 + 1 * 2147483647 : Nat) : Int) = -2147483648 := by
      unfold wrap32
      decide
    show some (wrap32 ((1 + 1 * 2147483647 : Nat) : Int)) = some (-2147483648 : Int)
    rw [hval]
  · decide

/-- C3 amended: with line numbering enabled and no resolution failures, the
n-th line-number annotation equals the two's-complement 32-bit value of n,
the i32 counter wrapping on overflow; in particular the n-th annotation
equals n for every n up to 2147483647. -/
theorem c3_amended (srcs : List (List Nat × (Nat → Nat))) (lineEnds : Bool) :
    ((cat (okInputs srcs) true lineEnds none).1).anns
      = wrapSeq ((cat (okInputs srcs) true lineEnds none).1).anns.length ∧
    ∀ i, i < ((cat (okInputs srcs) true lineEnds none).1).anns.length →
      (i : Int) + 1 ≤ 2147483647 →
      ((cat (okInputs srcs) true lineEnds none).1).anns.get? i
        = some ((i : Int) + 1) := by
  have hinit : annsGood initState := ⟨rfl, by decide⟩
  obtain ⟨h1, h2⟩ := catRun_annsGood true lineEnds (okInputs srcs) initState hinit
  simp only [cat]
  refine ⟨h1, ?_⟩
  intro i hi hb
  conv_lhs => rw [h1]
  unfold wrapSeq
  rw [List.get?_map, List.get?_range' 1 1 hi]
  have hcast : ((1 + 1 * i : Nat) : Int) = (i : Int) + 1 := by push_cast; ring
  show some (wrap32 ((1 + 1 * i : Nat) : Int)) = some ((i : Int) + 1)
  rw [hcast, wrap32_small (by omega) hb]

theorem c3_amended_witness :
    0 < ((cat (okInputs [([97, 10], fun _ => 0)]) true false none).1).anns.length ∧
    ((0 : Nat) : Int) + 1 ≤ 2147483647 ∧
    ((cat (okInputs [([97, 10], fun _ => 0)]) true false none).1).anns.get? 0
      = some (((0 : Nat) : Int) + 1) :=
  ⟨by decide, by decide,
    (c3_amended [([97, 10], fun _ => 0)] false).2 0 (by decide) (by decide)⟩

/-- C4 counterexample: the claim says a line break is forced before the
failure message when the engine is mid-line, so sources ab then a failure
nope would print ab, newline, cat: nope, newline; the code instead appends
cat: nope directly onto the partial line, printing abcat: nope, newline. -/
theorem c4_counterexample :
    ((cat [Except.ok ⟨[97, 98], fun _ => 1, false⟩, Except.error [110, 111, 112, 101]]
        false false none).1).out
      = [97, 98, 99, 97, 116, 58, 32, 110, 111, 112, 101, 10] ∧
    ((cat [Except.ok ⟨[97, 98], fun _ => 1, false⟩, Except.error [110, 111, 112, 101]]
        false false none).1).out
      ≠ [97, 98, 10, 99, 97, 116, 58, 32, 110, 111, 112, 101, 10] := by
  constructor
  · decide
  · decide

/-- C4 amended: on a resolution failure the message line cat: message plus a
terminator is appended at the current output position, continuing the
previous partial line when one is open, with no line break forced before it;
the line position state is reset so that the source following the failure
starts at start of line for annotation purposes. -/
theorem c4_amended (lineNums lineEnds : Bool) (msg : List Nat) (rest : List CatInput)
    (s : EngineState) :
    catRun lineNums lineEnds none (Except.error msg :: rest) s =
      catRun lineNums lineEnds none rest
        { s with out := s.out ++ errLine msg, st := BufReadState.StartOfLine } ∧
    errLine msg = [99, 97, 116, 58, 32] ++ msg ++ [10] :=
  ⟨catRun_cons_error_none lineNums lineEnds msg rest s, rfl⟩

/-- C5 counterexample: with end marking enabled, a run whose first source
contains the end-mark byte and whose second source fails to resolve yields
output where an end mark is not followed by a terminator and a terminator is
not preceded by an end mark, so the claimed property fails for that run. -/
theorem c5_counterexample :
    ¬ dollarMarked ((cat [Except.ok ⟨[36], fun _ => 0, false⟩,
        Except.error [110, 111, 112, 101]] false true none).1).out := by
  decide

/-- C5 amended: for every run with end-of-line marking enabled, no resolution
failures, no injected read or write failures, and in which no source content
contains the end-mark byte, every line terminator in the output is
immediately preceded by exactly one end mark and no end mark appears
anywhere else. -/
theorem c5_amended (lineNums : Bool) (srcs : List (List Nat × (Nat → Nat)))
    (h36 : ∀ pr ∈ srcs, ∀ b ∈ pr.1, b ≠ 36) :
    dollarMarked ((cat (okInputs srcs) lineNums true none).1).out := by
  obtain ⟨d, hd, hout⟩ := catRun_goodDollar lineNums srcs initState h36
  simp only [cat]
  rw [hout]
  simpa [initState] using gd_dollarMarked hd

theorem c5_amended_witness :
    (∀ pr ∈ ([([97, 10], fun _ => 0)] : List (List Nat × (Nat → Nat))),
      ∀ b ∈ pr.1, b ≠ 36) ∧
    dollarMarked ((cat (okInputs [([97, 10], fun _ => 0)]) false true none).1).out :=
  ⟨by decide, c5_amended false [([97, 10], fun _ => 0)] (by decide)⟩

/-- C6: a resolution failure between sources contributes exactly the bytes
cat: message newline, positioned after the fully drained output of the
sources before it and before any output of the sources after it; the run
continues with the next source from start of line and the line counter is not
advanced by the failure. -/
theorem c6_failure_position (lineNums lineEnds : Bool) (xs ys : List CatInput)
    (msg : List Nat) (s0 : EngineState)
    (h : (catRun lineNums lineEnds none xs s0).2 = none) :
    catRun lineNums lineEnds none (xs ++ Except.error msg :: ys) s0 =
      catRun lineNums lineEnds none ys
        { (catRun lineNums lineEnds none xs s0).1 with
          out := ((catRun lineNums lineEnds none xs s0).1).out ++ errLine msg,
          st := BufReadState.StartOfLine } ∧
    (∃ t, ((catRun lineNums lineEnds none (xs ++ Except.error msg :: ys) s0).1).out
      = ((catRun lineNums lineEnds none xs s0).1).out ++ errLine msg ++ t) ∧
    ((catRun lineNums lineEnds none (xs ++ [Except.error msg]) s0).1).count
      = ((catRun lineNums lineEnds none xs s0).1).count := by
  have h1 := catRun_append_of_ok lineNums lineEnds none xs (Except.error msg :: ys) s0 h
  have h2 := catRun_cons_error_none lineNums lineEnds msg ys
    (catRun lineNums lineEnds none xs s0).1
  refine ⟨by rw [h1, h2], ?_, ?_⟩
  · rw [h1, h2]
    obtain ⟨t, ht⟩ := catRun_out_mono lineNums lineEnds ys
      { (catRun lineNums lineEnds none xs s0).1 with
        out := ((catRun lineNums lineEnds none xs s0).1).out ++ errLine msg,
        st := BufReadState.StartOfLine }
    exact ⟨t, by rw [ht]⟩
  · rw [catRun_append_of_ok lineNums lineEnds none xs [Except.error msg] s0 h,
      catRun_cons_error_none, catRun_nil]

theorem c6_witness :
    (catRun false false none [] initState).2 = none ∧
    (catRun false false none
        ([] ++ Except.error [110] :: [Except.ok ⟨[121], fun _ => 0, false⟩]) initState =
      catRun false false none [Except.ok ⟨[121], fun _ => 0, false⟩]
        { (catRun false false none [] initState).1 with
          out := ((catRun false false none [] initState).1).out ++ errLine [110],
          st := BufReadState.StartOfLine } ∧
    (∃ t, ((catRun false false none
        ([] ++ Except.error [110] :: [Except.ok ⟨[121], fun _ => 0, false⟩]) initState).1).out
      = ((catRun false false none [] initState).1).out ++ errLine [110] ++ t) ∧
    ((catRun false false none ([] ++ [Except.error [110]]) initState).1).count
      = ((catRun false false none [] initState).1).count) :=
  ⟨rfl, c6_failure_position false false [] [Except.ok ⟨[121], fun _ => 0, false⟩]
    [110] initState rfl⟩

/-- C7: once a read from an already resolved source or a write to the output
sink fails, the whole run aborts: appending further sources to the input list
changes nothing, and the error is returned to the caller. -/
theorem c7_fatal_abort (lineNums lineEnds : Bool) (wcap : Option Nat)
    (ins ys : List CatInput) (s : EngineState) (er : RunError)
    (h : (catRun lineNums lineEnds wcap ins s).2 = some er) :
    catRun lineNums lineEnds wcap (ins ++ ys) s = catRun lineNums lineEnds wcap ins s ∧
    (catRun lineNums lineEnds wcap (ins ++ ys) s).2 = some er := by
  have h1 := catRun_append_of_err lineNums lineEnds wcap ins ys s er h
  exact ⟨h1, by rw [h1]; exact h⟩

theorem c7_witness :
    (catRun false false none [Except.ok ⟨[], fun _ => 0, true⟩] initState).2
        = some RunError.readError ∧
    (catRun false false none ([Except.ok ⟨[], fun _ => 0, true⟩]
        ++ [Except.ok ⟨[122], fun _ => 0, false⟩]) initState
      = catRun false false none [Except.ok ⟨[], fun _ => 0, true⟩] initState ∧
    (catRun false false none ([Except.ok ⟨[], fun _ => 0, true⟩]
        ++ [Except.ok ⟨[122], fun _ => 0, false⟩]) initState).2
      = some RunError.readError) :=
  ⟨by decide, c7_fatal_abort false false none [Except.ok ⟨[], fun _ => 0, true⟩]
    [Except.ok ⟨[122], fun _ => 0, false⟩] initState RunError.readError (by decide)⟩

/-- C8: cat is a pure function of its input list and option flags: two runs
on the same inputs are byte identical, and every run starts from the same
fresh engine state with empty output, line counter 1 and start-of-line
position, so no state persists from one run to the next. -/
theorem c8_deterministic (ins : List CatInput) (lineNums lineEnds : Bool)
    (wcap : Option Nat) :
    cat ins lineNums lineEnds wcap = cat ins lineNums lineEnds wcap ∧
    cat ins lineNums lineEnds wcap = catRun lineNums lineEnds wcap ins initState :=
  ⟨rfl, rfl⟩

/-- C9: from any state satisfying it, the engine preserves the invariant that
the line position is start of line exactly when the output so far is empty or
ends with a line terminator; this holds across every inner-loop iteration of
the per-source drain, for every chunk schedule, and across every source
boundary of the outer loop. -/
theorem c9_linePos_invariant :
    (∀ (lineNums lineEnds : Bool) (sched : Nat → Nat) (rerr : Bool) (fuel i : Nat)
      (src : List Nat) (s : EngineState), linePosInv s →
        linePosInv ((drainLoopF lineNums lineEnds none sched rerr fuel i src s).1)) ∧
    (∀ (lineNums lineEnds : Bool) (ins : List CatInput) (s : EngineState), linePosInv s →
      linePosInv ((catRun lineNums lineEnds none ins s).1)) :=
  ⟨fun lineNums lineEnds sched rerr fuel i src s h =>
      drainLoopF_linePos lineNums lineEnds sched rerr fuel i src s h,
   fun lineNums lineEnds ins s h => catRun_linePos lineNums lineEnds ins s h⟩

theorem c9_witness :
    linePosInv initState ∧
    linePosInv ((catRun true true none [Except.ok ⟨[97, 10, 98], fun _ => 0, false⟩]
      initState).1) :=
  ⟨by decide, c9_linePos_invariant.2 true true
    [Except.ok ⟨[97, 10, 98], fun _ => 0, false⟩] initState (by decide)⟩

/-- C10: every inner-loop iteration on a non-empty chunk consumes at least
one byte of the source, the terminator counting as one byte when the chunk
starts with it, so the unread bytes strictly decrease and the drain loop
reaches the empty-chunk exit: cat terminates on every finite input. -/
theorem c10_progress (lineNums lineEnds : Bool) (wcap : Option Nat) (k : Nat)
    (src : List Nat) (s : EngineState) (hne : src ≠ []) :
    1 ≤ (iterStep lineNums lineEnds wcap (src.take (k + 1)) s).consumed ∧
    (src.drop ((iterStep lineNums lineEnds wcap (src.take (k + 1)) s).consumed)).length
      < src.length := by
  have hchunk : src.take (k + 1) ≠ [] := take_ne_nil hne k
  have h1 : 1 ≤ (iterStep lineNums lineEnds wcap (src.take (k + 1)) s).consumed := by
    rw [iterStep_consumed]
    exact consumedOf_pos hchunk
  refine ⟨h1, ?_⟩
  rw [List.length_drop]
  have hpos : 0 < src.length := List.length_pos.mpr hne
  omega

theorem c10_witness :
    ([10, 97] : List Nat) ≠ [] ∧
    (1 ≤ (iterStep true true none (([10, 97] : List Nat).take (0 + 1)) initState).consumed ∧
    (([10, 97] : List Nat).drop
        ((iterStep true true none (([10, 97] : List Nat).take (0 + 1)) initState).consumed)).length
      < ([10, 97] : List Nat).length) :=
  ⟨by decide, c10_progress true true none 0 [10, 97] initState (by decide)⟩

end RustCat
